import Mathlib

/-!
Shallow embedding of `check_graphml.py` and `streamlit_app.py` from the
graphrag-local-ollama repository, together with theorems settling the
frozen claims about them.

Modelling conventions:
* Filesystem state is passed explicitly (`RootFS`): the root directory
  name, whether `root/output` exists, and the list of its immediate
  subdirectories in `iterdir` order, each with its modification time,
  whether it has an `artifacts` subdirectory, and the `*.graphml` files
  (in `glob` enumeration order) inside it.
* `st_mtime` is a float in Python; we model it as a natural number of
  milliseconds (`mtimeMs`).  `strftime "%Y-%m-%d %H:%M:%S"` truncates to
  whole seconds, and for representable (4-digit-year) times the formatted
  strings compare lexicographically exactly as the underlying whole-second
  values, so the record field `modified` is embedded as the whole-second
  value `mtimeMs / 1000`.
* `subprocess.run` with `check=True` is modelled as an `Except` value:
  `.error` carries the `CalledProcessError` payload raised on a non-zero
  exit status.
* Python's built-in `print` calls are modelled as a returned list of
  diagnostic strings.
-/

/-- The outcome of the external `graphrag.query` process: exit status and
captured `stdout` / `stderr` (as `capture_output=True, text=True` yields). -/
structure ProcResult where
  exitcode : Int
  stdout : String
  stderr : String
deriving DecidableEq, Repr

/-- Payload of Python's `subprocess.CalledProcessError`. -/
structure CalledProcessError where
  returncode : Int
  output : String
  stderr : String
deriving DecidableEq, Repr

/-- `subprocess.run(..., capture_output=True, text=True, check=True)`:
returns the completed process on exit status 0 and raises
`CalledProcessError` otherwise. -/
def subprocessRunCheck (r : ProcResult) : Except CalledProcessError ProcResult :=
  if r.exitcode = 0 then .ok r else .error ⟨r.exitcode, r.stdout, r.stderr⟩

/-- Python's `str.strip()`: remove leading and trailing whitespace
characters.  (Python strips a slightly larger Unicode whitespace class;
the difference is irrelevant to the claims, which concern emptiness.) -/
def pyStrip (s : String) : String :=
  ⟨((s.data.dropWhile Char.isWhitespace).reverse.dropWhile Char.isWhitespace).reverse⟩

/-- `run_graphrag_query` from `streamlit_app.py` (lines 31-45), with the
behaviour of the external process supplied as input.
`if not result.stdout.strip()` tests that the stripped output is empty. -/
def run_graphrag_query (r : ProcResult) : String :=
  match subprocessRunCheck r with
  | .ok result =>
      if pyStrip result.stdout = "" then
        "The query completed but returned no results."
      else
        result.stdout
  | .error e => "Error: " ++ e.stderr

/-- A `*.graphml` file inside an `artifacts` directory: base name,
modification time in milliseconds, and size in bytes. -/
structure ArtifactFile where
  name : String
  mtimeMs : Nat
  sizeBytes : Nat
deriving DecidableEq, Repr

/-- An immediate subdirectory of `root/output` (a "timestamp directory"):
its name, its own modification time, whether it contains an `artifacts`
subdirectory, and the `*.graphml` files found there by `glob` (in
enumeration order; empty when `hasArtifacts` is false). -/
structure TsDir where
  name : String
  mtimeMs : Nat
  hasArtifacts : Bool
  files : List ArtifactFile
deriving DecidableEq, Repr

/-- The filesystem as both scripts observe it: the root directory string,
whether `root/output` exists, and its subdirectories in `iterdir` order. -/
structure RootFS where
  root : String
  hasOutput : Bool
  tsDirs : List TsDir
deriving DecidableEq, Repr

/-- The full path string of an artifact file, as `str(file)` produces it. -/
def artifactPath (fs : RootFS) (d : TsDir) (f : ArtifactFile) : String :=
  fs.root ++ "/output/" ++ d.name ++ "/artifacts/" ++ f.name

/-- One record of `find_graphml_files` (`check_graphml.py` lines 34-39).
`modifiedSec` embeds the `strftime "%Y-%m-%d %H:%M:%S"`-formatted string:
whole seconds, order-isomorphic to the string under lexicographic
comparison. -/
structure GraphmlRecord where
  path : String
  timestamp_dir : String
  modifiedSec : Nat
  size_kb : ℚ
deriving DecidableEq, Repr

/-- Stable insertion of `x` into a list already sorted descending by key
`k`: `x` is placed before the first element whose key does not exceed
`x`'s, so among equal keys earlier (discovery-order) elements stay first —
exactly the order Python's stable `sorted(..., reverse=True)` produces. -/
def insertDesc (k : α → Nat) (x : α) : List α → List α
  | [] => [x]
  | y :: ys => if k y ≤ k x then x :: y :: ys else y :: insertDesc k x ys

/-- Stable descending sort by key `k`, modelling Python's
`sorted(..., key=..., reverse=True)`. -/
def sortDesc (k : α → Nat) : List α → List α
  | [] => []
  | x :: xs => insertDesc k x (sortDesc k xs)

/-- The records one timestamp directory contributes (`check_graphml.py`
lines 27-39): nothing when it has no `artifacts` subdirectory, else one
record per `*.graphml` file. -/
def dirRecords (fs : RootFS) (d : TsDir) : List GraphmlRecord :=
  if d.hasArtifacts then
    d.files.map fun f =>
      { path := artifactPath fs d f
        timestamp_dir := d.name
        modifiedSec := f.mtimeMs / 1000
        size_kb := (f.sizeBytes : ℚ) / 1024 }
  else []

/-- `find_graphml_files` from `check_graphml.py` (lines 10-41).  Returns
the printed diagnostics together with the list of records, sorted by the
second-precision `modified` key, descending. -/
def find_graphml_files (fs : RootFS) : List String × List GraphmlRecord :=
  if fs.hasOutput = false then
    (["Output directory not found: " ++ fs.root ++ "/output"], [])
  else if fs.tsDirs = [] then
    (["Checking output directory: " ++ fs.root ++ "/output",
      "No timestamp directories found."], [])
  else
    (["Checking output directory: " ++ fs.root ++ "/output"],
     sortDesc (fun r => r.modifiedSec) (fs.tsDirs.flatMap (dirRecords fs)))

/-- Python's `max(timestamp_dirs, key=lambda d: d.stat().st_mtime)`:
scans left to right, replacing the current best only on a strictly larger
key (so the first of several maxima wins). -/
def maxByMtime (d : TsDir) (ds : List TsDir) : TsDir :=
  ds.foldl (fun best c => if best.mtimeMs < c.mtimeMs then c else best) d

/-- `find_latest_graphml` from `streamlit_app.py` (lines 49-72): pick the
timestamp directory with maximal mtime; return the summary export
`summarized_graph.graphml` if that path exists, else the first `*.graphml`
file in the `artifacts` directory, else `none`; `none` as well when
`root/output` is missing or has no subdirectories. -/
def find_latest_graphml (fs : RootFS) : Option String :=
  if fs.hasOutput = false then none
  else
    match fs.tsDirs with
    | [] => none
    | d :: ds =>
      let latest := maxByMtime d ds
      if latest.hasArtifacts ∧ latest.files.any (fun f => f.name = "summarized_graph.graphml") then
        some (fs.root ++ "/output/" ++ latest.name ++ "/artifacts/summarized_graph.graphml")
      else if latest.hasArtifacts then
        match latest.files with
        | [] => none
        | f :: _ => some (artifactPath fs latest f)
      else none

/-- A node of the loaded GraphML graph: its identifier and its optional
`community` attribute (community labels are integers in the exported
graph; a node may lack the attribute entirely). -/
structure GNode where
  name : String
  community : Option Int
deriving DecidableEq, Repr

/-- The in-memory graph `nx.read_graphml` yields: nodes in document
(insertion) order and the deduplicated undirected edge list. -/
structure Graph where
  nodes : List GNode
  edges : List (String × String)
deriving DecidableEq, Repr

/-- `graph.degree(node)` of an undirected `nx.Graph`: the number of
incident edges, with a self-loop counted twice. -/
def degree (g : Graph) (v : String) : Nat :=
  (g.edges.filter fun e => e.1 = v).length + (g.edges.filter fun e => e.2 = v).length

/-- First-occurrence deduplication.  Models the enumeration order of
`list(set(...))` in line 103: Python's set iteration order is
implementation-defined, and we fix it as first-occurrence order (which
CPython realises, e.g., for the values used in the counterexamples
below). -/
def dedupFirst : List Int → List Int
  | [] => []
  | x :: xs => x :: (dedupFirst xs).filter fun y => y ≠ x

/-- `communities` (line 103): the distinct `community` values of the
nodes carrying the attribute. -/
def communities (g : Graph) : List Int :=
  dedupFirst (g.nodes.filterMap fun nd => nd.community)

/-- Position of `c` in `l`, if present.  `communityIndexOpt (communities g) c`
is the lookup in the dict `community_to_int = {c: i for i, c in
enumerate(communities)}` (line 104). -/
def communityIndexOpt : List Int → Int → Option Nat
  | [], _ => none
  | x :: xs, c => if x = c then some 0 else (communityIndexOpt xs c).map (· + 1)

/-- The per-node colour source values together with the colorbar title
(lines 101-111).  The branch tests whether the FIRST enumerated node's
data dict has a `community` key; `first` is that node.  In the community
branch each node's colour is `community_to_int.get(data.get('community', 0), 0)`:
the node's community value, defaulting to `0` when the attribute is
absent, looked up in the index dict with default `0`. -/
def rawNodeColors (g : Graph) (first : GNode) : List Int × String :=
  if first.community.isSome then
    (g.nodes.map fun v => ((communityIndexOpt (communities g) (v.community.getD 0)).getD 0 : Int),
     "Community")
  else
    (g.nodes.map fun v => (degree g v.name : Int), "Node Degree")

/-- `np.array(cs).max()` on a non-empty list (the code only calls it under
a non-emptiness guard; `0` is an arbitrary value for the empty case). -/
def npMax : List Int → Int
  | [] => 0
  | x :: xs => xs.foldl max x

/-- `np.array(cs).min()` on a non-empty list. -/
def npMin : List Int → Int
  | [] => 0
  | x :: xs => xs.foldl min x

/-- Colour normalization (lines 114-116): when the array is non-empty and
max ≠ min, map linearly onto [0,1]; otherwise leave the values as they
are.  Real (float) arithmetic is embedded as exact rational arithmetic. -/
def normalizeColors (cs : List Int) : List ℚ :=
  if 0 < cs.length ∧ npMax cs ≠ npMin cs then
    cs.map (fun c : Int => ((c : ℚ) - (npMin cs : ℚ)) / ((npMax cs : ℚ) - (npMin cs : ℚ)))
  else
    cs.map (fun c : Int => (c : ℚ))

/-- Result of `visualize_graph`: `none` (missing path), an uncaught
`StopIteration` escaping the function, or a figure whose node trace
carries the normalized colours, the colorbar title and the node sizes. -/
inductive VizResult where
  | noFigure
  | stopIteration
  | figure (nodeColors : List ℚ) (colorbarTitle : String) (nodeSizes : List Nat)
deriving DecidableEq, Repr

/-- `visualize_graph` from `streamlit_app.py` (lines 76-165), restricted
to the data the claims are about.  `pathExists` is the line-77 guard
(`graphml_path` truthy and `os.path.exists`); the graph is the result of
`nx.read_graphml`.  Line 101 evaluates `next(iter(graph.nodes(data=True)))`,
which raises `StopIteration` when the graph has no nodes. -/
def visualize_graph (pathExists : Bool) (g : Graph) : VizResult :=
  if pathExists = false then .noFigure
  else
    match g.nodes.head? with
    | none => .stopIteration
    | some first =>
      let rc := rawNodeColors g first
      .figure (normalizeColors rc.1) rc.2 (g.nodes.map fun v => 5 + 3 * degree g v.name)

/-- The loaded graph abstracted for the statistics pane (lines 215-225):
nodes are indexed `0 .. n-1` in insertion order, edges are index pairs of
an undirected `nx.Graph`. -/
structure CGraph where
  n : Nat
  edges : List (Fin n × Fin n)

/-- Adjacency of the undirected graph: some listed edge joins `i` and `j`
in either orientation. -/
def adjP (G : CGraph) (i j : Fin G.n) : Prop :=
  ∃ e ∈ G.edges, (e.1 = i ∧ e.2 = j) ∨ (e.1 = j ∧ e.2 = i)

instance (G : CGraph) (i j : Fin G.n) : Decidable (adjP G i j) := by
  unfold adjP; infer_instance

/-- One breadth step: add every node adjacent to the current set. -/
def expandStep (G : CGraph) (s : Finset (Fin G.n)) : Finset (Fin G.n) :=
  s ∪ Finset.univ.filter fun j => ∃ i ∈ s, adjP G i j

/-- The set of nodes reachable from `v`: `n` breadth steps from `{v}`
saturate, since each non-stationary step strictly grows the set. -/
def reachSet (G : CGraph) (v : Fin G.n) : Finset (Fin G.n) :=
  (expandStep G)^[G.n] {v}

/-- `nx.is_connected(graph)` (line 222): a breadth-first search from an
arbitrary (the first) node visits every node.  `nx.is_connected` raises on
the null graph; the statistics pane only runs on a successfully rendered
(hence non-empty) graph, and the claims about this value assume `0 < n`. -/
def isConnected (G : CGraph) : Bool :=
  if h : 0 < G.n then decide (reachSet G ⟨0, h⟩ = Finset.univ) else false

/-- `nx.number_connected_components(graph)` (line 225): the number of
distinct connected components, i.e. of distinct reachability sets. -/
def numComponents (G : CGraph) : Nat :=
  (Finset.univ.image fun v : Fin G.n => reachSet G v).card

/-- The connected-component statistic the visualize tab displays
(lines 222-225): `1` directly when `nx.is_connected` holds, otherwise
`nx.number_connected_components`. -/
def displayedComponents (G : CGraph) : Nat :=
  if isConnected G then 1 else numComponents G

/-- The colorbar title of a produced figure, if any. -/
def vizColorbarTitle : VizResult → Option String
  | .figure _ t _ => some t
  | _ => none

/-- A filesystem whose root has no `output` subdirectory. -/
def fsNoOutput : RootFS := ⟨"./ragtest", false, []⟩

/-- A filesystem whose `output` directory exists but has no subdirectories. -/
def fsNoDirs : RootFS := ⟨"./ragtest", true, []⟩

/-- Two timestamp directories, one `*.graphml` file each; the two files'
raw modification times are distinct (1.1 s and 1.9 s) but fall in the same
whole second, so their formatted `modified` keys coincide. -/
def fsSameSecond : RootFS :=
  ⟨"r", true,
   [⟨"t1", 0, true, [⟨"a.graphml", 1100, 1024⟩]⟩,
    ⟨"t2", 0, true, [⟨"b.graphml", 1900, 2048⟩]⟩]⟩

/-- The timestamp directory with the strictly largest mtime in `fsTwoDirs`. -/
def latestDir : TsDir := ⟨"t2", 2000, true, [⟨"summarized_graph.graphml", 1500, 1024⟩]⟩

/-- Two timestamp directories with distinct mtimes; the newer one holds
the summary export. -/
def fsTwoDirs : RootFS :=
  ⟨"r", true, [⟨"t1", 1000, true, [⟨"x.graphml", 900, 512⟩]⟩, latestDir]⟩

/-- The external query process failing with stderr `"timeout"`. -/
def procTimeout : ProcResult := ⟨1, "", "timeout"⟩

/-- The external query process succeeding with empty stdout. -/
def procEmptyOut : ProcResult := ⟨0, "", "diag"⟩

/-- A syntactically valid GraphML file with zero nodes, as loaded. -/
def graphZeroNodes : Graph := ⟨[], []⟩

/-- First node lacks the `community` attribute, second carries it. -/
def gFirstNoComm : Graph := ⟨[⟨"a", none⟩, ⟨"b", some 1⟩], []⟩

/-- A one-node graph whose (first) node carries a `community` attribute. -/
def gFirstComm : Graph := ⟨[⟨"a", some 3⟩], []⟩

/-- Two nodes of equal degree, neither with a `community` attribute. -/
def gSameDegree : Graph := ⟨[⟨"a", none⟩, ⟨"b", none⟩], [("a", "b")]⟩

/-- Community values 8 and 0 (enumerated in that order: in CPython, 8 is
inserted first and occupies hash slot 0, so set iteration yields 8 before
0), plus a node lacking the attribute. -/
def gMissingComm : Graph := ⟨[⟨"a", some 8⟩, ⟨"b", some 0⟩, ⟨"c", none⟩], []⟩

/-- A connected two-node graph on indices `0` and `1`. -/
def cgraphPath : CGraph := ⟨2, [(0, 1)]⟩

theorem adjP_symm (G : CGraph) {i j : Fin G.n} (h : adjP G i j) : adjP G j i := by
  obtain ⟨e, he, h1 | h2⟩ := h
  · exact ⟨e, he, Or.inr h1⟩
  · exact ⟨e, he, Or.inl h2⟩

theorem subset_expandStep (G : CGraph) (s : Finset (Fin G.n)) : s ⊆ expandStep G s :=
  Finset.subset_union_left

theorem expandStep_mono (G : CGraph) {s t : Finset (Fin G.n)} (h : s ⊆ t) :
    expandStep G s ⊆ expandStep G t := by
  intro j hj
  rcases Finset.mem_union.mp hj with hj | hj
  · exact Finset.mem_union.mpr (Or.inl (h hj))
  · obtain ⟨-, i, hi, hadj⟩ := Finset.mem_filter.mp hj
    exact Finset.mem_union.mpr (Or.inr (Finset.mem_filter.mpr ⟨Finset.mem_univ _, i, h hi, hadj⟩))

theorem iterate_subset_of_closed (G : CGraph) {t : Finset (Fin G.n)}
    (ht : expandStep G t ⊆ t) {s : Finset (Fin G.n)} (hs : s ⊆ t) :
    ∀ k, (expandStep G)^[k] s ⊆ t := by
  intro k
  induction k with
  | zero => simpa using hs
  | succ k ih =>
    rw [Function.iterate_succ_apply']
    exact (expandStep_mono G ih).trans ht

theorem subset_iterate_expandStep (G : CGraph) (s : Finset (Fin G.n)) :
    ∀ k, s ⊆ (expandStep G)^[k] s := by
  intro k
  induction k with
  | zero => simp
  | succ k ih =>
    rw [Function.iterate_succ_apply']
    exact ih.trans (subset_expandStep G _)

theorem mem_reachSet_self (G : CGraph) (v : Fin G.n) : v ∈ reachSet G v :=
  subset_iterate_expandStep G {v} G.n (Finset.mem_singleton_self v)

theorem iterate_expandStep_progress (G : CGraph) (s : Finset (Fin G.n)) :
    ∀ m, (∃ k, k < m ∧ expandStep G ((expandStep G)^[k] s) = (expandStep G)^[k] s) ∨
      m + s.card ≤ ((expandStep G)^[m] s).card := by
  intro m
  induction m with
  | zero => exact Or.inr (by simp)
  | succ m ih =>
    rcases ih with ⟨k, hk, hfix⟩ | hcard
    · exact Or.inl ⟨k, Nat.lt_succ_of_lt hk, hfix⟩
    · by_cases hfix : expandStep G ((expandStep G)^[m] s) = (expandStep G)^[m] s
      · exact Or.inl ⟨m, Nat.lt_succ_self m, hfix⟩
      · refine Or.inr ?_
        have hss : (expandStep G)^[m] s ⊂ (expandStep G)^[m+1] s := by
          rw [Function.iterate_succ_apply']
          exact lt_of_le_of_ne (subset_expandStep G _) (fun h => hfix h.symm)
        have := Finset.card_lt_card hss
        omega

theorem expandStep_reachSet (G : CGraph) (v : Fin G.n) :
    expandStep G (reachSet G v) = reachSet G v := by
  rcases iterate_expandStep_progress G {v} G.n with ⟨k, hk, hfix⟩ | hcard
  · have hstab : ∀ m, k ≤ m → (expandStep G)^[m] {v} = (expandStep G)^[k] {v} := by
      intro m hm
      induction m, hm using Nat.le_induction with
      | base => rfl
      | succ m hm ih => rw [Function.iterate_succ_apply', ih, hfix]
    have h1 : reachSet G v = (expandStep G)^[k] {v} := hstab G.n (Nat.le_of_lt hk)
    rw [reachSet] at *
    rw [h1, hfix]
  · exfalso
    have h1 : ((expandStep G)^[G.n] ({v} : Finset (Fin G.n))).card ≤ G.n := by
      simpa using Finset.card_le_univ ((expandStep G)^[G.n] ({v} : Finset (Fin G.n)))
    have h2 : ({v} : Finset (Fin G.n)).card = 1 := Finset.card_singleton v
    omega

theorem reachSet_closed (G : CGraph) {v i j : Fin G.n}
    (hi : i ∈ reachSet G v) (hadj : adjP G i j) : j ∈ reachSet G v := by
  have : j ∈ expandStep G (reachSet G v) :=
    Finset.mem_union.mpr (Or.inr (Finset.mem_filter.mpr ⟨Finset.mem_univ _, i, hi, hadj⟩))
  rwa [expandStep_reachSet G v] at this

theorem reachSet_subset_of_mem (G : CGraph) {v w : Fin G.n} (h : w ∈ reachSet G v) :
    reachSet G w ⊆ reachSet G v := by
  have hcl : expandStep G (reachSet G v) ⊆ reachSet G v :=
    (expandStep_reachSet G v).le
  exact iterate_subset_of_closed G hcl (Finset.singleton_subset_iff.mpr h) G.n

theorem expandStep_compl_closed (G : CGraph) {s : Finset (Fin G.n)}
    (hfix : expandStep G s = s) : expandStep G sᶜ ⊆ sᶜ := by
  intro j hj
  rcases Finset.mem_union.mp hj with hj | hj
  · exact hj
  · obtain ⟨-, i, hi, hadj⟩ := Finset.mem_filter.mp hj
    by_contra hjs
    have hjmem : j ∈ s := by simpa using hjs
    have : i ∈ expandStep G s :=
      Finset.mem_union.mpr (Or.inr (Finset.mem_filter.mpr
        ⟨Finset.mem_univ _, j, hjmem, adjP_symm G hadj⟩))
    rw [hfix] at this
    exact (Finset.mem_compl.mp hi) this

theorem mem_reachSet_symm (G : CGraph) {v w : Fin G.n} (h : w ∈ reachSet G v) :
    v ∈ reachSet G w := by
  by_contra hv
  have hvc : v ∈ (reachSet G w)ᶜ := Finset.mem_compl.mpr hv
  have hsub : reachSet G v ⊆ (reachSet G w)ᶜ :=
    iterate_subset_of_closed G (expandStep_compl_closed G (expandStep_reachSet G w))
      (Finset.singleton_subset_iff.mpr hvc) G.n
  exact (Finset.mem_compl.mp (hsub h)) (mem_reachSet_self G w)

theorem reachSet_eq_of_mem (G : CGraph) {v w : Fin G.n} (h : w ∈ reachSet G v) :
    reachSet G w = reachSet G v :=
  le_antisymm (reachSet_subset_of_mem G h)
    (reachSet_subset_of_mem G (mem_reachSet_symm G h))

theorem length_insertDesc (k : α → Nat) (x : α) (l : List α) :
    (insertDesc k x l).length = l.length + 1 := by
  induction l with
  | nil => rfl
  | cons y ys ih =>
    unfold insertDesc
    by_cases h : k y ≤ k x
    · simp [h]
    · simp [h, ih]

theorem mem_insertDesc (k : α → Nat) (x z : α) (l : List α) :
    z ∈ insertDesc k x l ↔ z = x ∨ z ∈ l := by
  induction l with
  | nil => simp [insertDesc]
  | cons y ys ih =>
    unfold insertDesc
    by_cases h : k y ≤ k x
    · simp only [if_pos h, List.mem_cons]
    · simp only [if_neg h, List.mem_cons, ih]
      tauto

theorem pairwise_insertDesc (k : α → Nat) (x : α) (l : List α)
    (h : l.Pairwise fun a b => k b ≤ k a) :
    (insertDesc k x l).Pairwise fun a b => k b ≤ k a := by
  induction l with
  | nil => simp [insertDesc]
  | cons y ys ih =>
    rw [List.pairwise_cons] at h
    obtain ⟨hy, hys⟩ := h
    unfold insertDesc
    by_cases hk : k y ≤ k x
    · rw [if_pos hk, List.pairwise_cons]
      refine ⟨?_, List.pairwise_cons.mpr ⟨hy, hys⟩⟩
      intro z hz
      rcases List.mem_cons.mp hz with rfl | hz
      · exact hk
      · exact le_trans (hy z hz) hk
    · rw [if_neg hk, List.pairwise_cons]
      refine ⟨?_, ih hys⟩
      intro z hz
      rcases (mem_insertDesc k x z ys).mp hz with rfl | hz
      · omega
      · exact hy z hz

theorem length_sortDesc (k : α → Nat) (l : List α) : (sortDesc k l).length = l.length := by
  induction l with
  | nil => rfl
  | cons x xs ih => rw [sortDesc, length_insertDesc, ih, List.length_cons]

theorem pairwise_sortDesc (k : α → Nat) (l : List α) :
    (sortDesc k l).Pairwise fun a b => k b ≤ k a := by
  induction l with
  | nil => simp [sortDesc]
  | cons x xs ih => exact pairwise_insertDesc k x _ ih

theorem length_flatMap_of_one (f : β → List γ) (l : List β)
    (h : ∀ d ∈ l, (f d).length = 1) : (l.flatMap f).length = l.length := by
  induction l with
  | nil => rfl
  | cons d ds ih =>
    rw [List.flatMap_cons, List.length_append, h d (List.mem_cons_self d ds),
      ih fun x hx => h x (List.mem_cons_of_mem d hx), List.length_cons]
    omega

theorem le_foldl_max (xs : List Int) (a : Int) : a ≤ xs.foldl max a := by
  induction xs generalizing a with
  | nil => exact le_refl a
  | cons x xs ih => exact le_trans (le_max_left a x) (ih (max a x))

theorem mem_le_foldl_max : ∀ (xs : List Int) (a c : Int), c ∈ xs → c ≤ xs.foldl max a
  | [], _, _, hc => absurd hc (List.not_mem_nil _)
  | x :: xs, a, c, hc => by
    rcases List.mem_cons.mp hc with rfl | hc
    · exact le_trans (le_max_right a c) (le_foldl_max xs (max a c))
    · exact mem_le_foldl_max xs (max a x) c hc

theorem foldl_max_mem : ∀ (xs : List Int) (a : Int), xs.foldl max a = a ∨ xs.foldl max a ∈ xs
  | [], _ => Or.inl rfl
  | x :: xs, a => by
    rw [List.foldl_cons]
    rcases foldl_max_mem xs (max a x) with h | h
    · rcases max_choice a x with h2 | h2
      · exact Or.inl (by rw [h, h2])
      · exact Or.inr (by rw [h, h2]; exact List.mem_cons_self x xs)
    · exact Or.inr (List.mem_cons_of_mem x h)

theorem foldl_min_ge (xs : List Int) (a : Int) : xs.foldl min a ≤ a := by
  induction xs generalizing a with
  | nil => exact le_refl a
  | cons x xs ih => exact le_trans (ih (min a x)) (min_le_left a x)

theorem foldl_min_le_mem : ∀ (xs : List Int) (a c : Int), c ∈ xs → xs.foldl min a ≤ c
  | [], _, _, hc => absurd hc (List.not_mem_nil _)
  | x :: xs, a, c, hc => by
    rcases List.mem_cons.mp hc with rfl | hc
    · exact le_trans (foldl_min_ge xs (min a c)) (min_le_right a c)
    · exact foldl_min_le_mem xs (min a x) c hc

theorem foldl_min_mem : ∀ (xs : List Int) (a : Int), xs.foldl min a = a ∨ xs.foldl min a ∈ xs
  | [], _ => Or.inl rfl
  | x :: xs, a => by
    rw [List.foldl_cons]
    rcases foldl_min_mem xs (min a x) with h | h
    · rcases min_choice a x with h2 | h2
      · exact Or.inl (by rw [h, h2])
      · exact Or.inr (by rw [h, h2]; exact List.mem_cons_self x xs)
    · exact Or.inr (List.mem_cons_of_mem x h)

theorem le_npMax (cs : List Int) {c : Int} (hc : c ∈ cs) : c ≤ npMax cs := by
  cases cs with
  | nil => cases hc
  | cons x xs =>
    rcases List.mem_cons.mp hc with rfl | hc
    · exact le_foldl_max xs c
    · exact mem_le_foldl_max xs x c hc

theorem npMax_mem (cs : List Int) (h : cs ≠ []) : npMax cs ∈ cs := by
  cases cs with
  | nil => exact absurd rfl h
  | cons x xs =>
    rw [npMax]
    rcases foldl_max_mem xs x with h2 | h2
    · rw [h2]; exact List.mem_cons_self x xs
    · exact List.mem_cons_of_mem x h2

theorem npMin_le (cs : List Int) {c : Int} (hc : c ∈ cs) : npMin cs ≤ c := by
  cases cs with
  | nil => cases hc
  | cons x xs =>
    rcases List.mem_cons.mp hc with rfl | hc
    · exact foldl_min_ge xs c
    · exact foldl_min_le_mem xs x c hc

theorem npMin_mem (cs : List Int) (h : cs ≠ []) : npMin cs ∈ cs := by
  cases cs with
  | nil => exact absurd rfl h
  | cons x xs =>
    rw [npMin]
    rcases foldl_min_mem xs x with h2 | h2
    · rw [h2]; exact List.mem_cons_self x xs
    · exact List.mem_cons_of_mem x h2

theorem maxByMtime_eq (ds : List TsDir) : ∀ d L : TsDir, L ∈ d :: ds →
    (∀ c ∈ d :: ds, c ≠ L → c.mtimeMs < L.mtimeMs) → maxByMtime d ds = L := by
  induction ds with
  | nil =>
    intro d L hL _
    rcases List.mem_cons.mp hL with rfl | h
    · rfl
    · cases h
  | cons c ds ih =>
    intro d L hL hmax
    show maxByMtime (if d.mtimeMs < c.mtimeMs then c else d) ds = L
    by_cases hdc : d.mtimeMs < c.mtimeMs
    · rw [if_pos hdc]
      refine ih c L ?_ ?_
      · rcases List.mem_cons.mp hL with rfl | hL2
        · by_cases hcL : c = L
          · rw [hcL]; exact List.mem_cons_self L ds
          · exact absurd (hmax c (List.mem_cons_of_mem L (List.mem_cons_self c ds)) hcL)
              (by omega)
        · exact hL2
      · intro x hx hxL
        exact hmax x (List.mem_cons_of_mem d hx) hxL
    · rw [if_neg hdc]
      refine ih d L ?_ ?_
      · rcases List.mem_cons.mp hL with rfl | hL2
        · exact List.mem_cons_self L ds
        · rcases List.mem_cons.mp hL2 with rfl | hL3
          · by_cases hdL : d = L
            · rw [← hdL]; exact List.mem_cons_self d ds
            · exact absurd (hmax d (List.mem_cons_self d _) hdL) hdc
          · exact List.mem_cons_of_mem d hL3
      · intro x hx hxL
        rcases List.mem_cons.mp hx with rfl | hx2
        · exact hmax x (List.mem_cons_self x _) hxL
        · exact hmax x (List.mem_cons_of_mem d (List.mem_cons_of_mem c hx2)) hxL

/-- C1: on a path to a valid but empty graph file (zero nodes), the
renderer does NOT return `none` or a figure with empty traces: line 101's
`next(iter(graph.nodes(data=True)))` raises an uncaught `StopIteration`.
The color-normalization guard itself (line 115) is never reached.  This
evaluates the embedded code at the failing input. -/
theorem visualize_graph_zero_nodes_raises :
    visualize_graph true graphZeroNodes = VizResult.stopIteration := by
  rfl

/-- C5: when the external query process exits with a non-zero status,
`run_graphrag_query` returns normally (the exception is caught) with the
captured stderr prefixed by the error marker `"Error: "`. -/
theorem run_graphrag_query_nonzero_exit (r : ProcResult) (h : r.exitcode ≠ 0) :
    run_graphrag_query r = "Error: " ++ r.stderr := by
  unfold run_graphrag_query subprocessRunCheck
  rw [if_neg h]

/-- Witness for C5: exit status 1 with stderr `"timeout"` yields
`"Error: timeout"`, which contains the marker and the literal text. -/
theorem run_graphrag_query_nonzero_exit_witness :
    procTimeout.exitcode ≠ 0 ∧ run_graphrag_query procTimeout = "Error: " ++ "timeout" :=
  ⟨by decide, run_graphrag_query_nonzero_exit procTimeout (by decide)⟩

/-- C6: when the external query process exits zero, the captured stdout is
returned verbatim, except that an empty/whitespace-only stdout is replaced
by the fixed "no results" message. -/
theorem run_graphrag_query_zero_exit (r : ProcResult) (h : r.exitcode = 0) :
    (pyStrip r.stdout = "" →
      run_graphrag_query r = "The query completed but returned no results.") ∧
    (pyStrip r.stdout ≠ "" → run_graphrag_query r = r.stdout) := by
  unfold run_graphrag_query subprocessRunCheck
  rw [if_pos h]
  constructor <;> intro h2 <;> simp [h2]

/-- Witness for C6: exit status 0 with empty stdout yields the fixed
"no results" message verbatim. -/
theorem run_graphrag_query_zero_exit_witness :
    procEmptyOut.exitcode = 0 ∧ pyStrip procEmptyOut.stdout = "" ∧
    run_graphrag_query procEmptyOut = "The query completed but returned no results." :=
  ⟨rfl, by decide, (run_graphrag_query_zero_exit procEmptyOut rfl).1 (by decide)⟩

/-- C7: without a `root/output` directory `find_graphml_files` emits a
diagnostic and returns the empty list (no exception); likewise when
`root/output` exists but has no subdirectories. -/
theorem find_graphml_files_missing_output (fs : RootFS) :
    (fs.hasOutput = false →
      find_graphml_files fs =
        (["Output directory not found: " ++ fs.root ++ "/output"], [])) ∧
    (fs.hasOutput = true → fs.tsDirs = [] →
      find_graphml_files fs =
        (["Checking output directory: " ++ fs.root ++ "/output",
          "No timestamp directories found."], [])) := by
  constructor
  · intro h
    simp [find_graphml_files, h]
  · intro h1 h2
    simp [find_graphml_files, h1, h2]

/-- Witness for C7 at a root without `output` and at a root whose `output`
has no subdirectories. -/
theorem find_graphml_files_missing_output_witness :
    fsNoOutput.hasOutput = false ∧ (find_graphml_files fsNoOutput).2 = [] ∧
    fsNoDirs.hasOutput = true ∧ fsNoDirs.tsDirs = [] ∧
    (find_graphml_files fsNoDirs).2 = [] := by
  refine ⟨rfl, ?_, rfl, rfl, ?_⟩
  · rw [(find_graphml_files_missing_output fsNoOutput).1 rfl]
  · rw [(find_graphml_files_missing_output fsNoDirs).2 rfl rfl]

/-- C2 counterexample: in `gFirstNoComm` the second node carries a
`community` attribute ("any node" holds), yet the renderer takes the
degree branch and titles the colorbar "Node Degree", because line 101
tests only the first enumerated node. -/
theorem coloring_any_node_counterexample :
    (gFirstNoComm.nodes.any fun nd => nd.community.isSome) = true ∧
    vizColorbarTitle (visualize_graph true gFirstNoComm) = some "Node Degree" ∧
    some "Node Degree" ≠ some "Community" := by
  refine ⟨by decide, by rfl, by decide⟩

/-- C2 amended: the colouring branch tests the FIRST enumerated node's
data for a `community` key: if present, every node is coloured by the
integer index assigned per distinct community value (colorbar title
"Community"); otherwise every node is coloured by its degree (colorbar
title "Node Degree"). -/
theorem coloring_branch_on_first_node (g : Graph) (first : GNode) (rest : List GNode)
    (hn : g.nodes = first :: rest) :
    (first.community.isSome = true →
      visualize_graph true g = VizResult.figure
        (normalizeColors (g.nodes.map fun v =>
          ((communityIndexOpt (communities g) (v.community.getD 0)).getD 0 : Int)))
        "Community" (g.nodes.map fun v => 5 + 3 * degree g v.name)) ∧
    (first.community.isSome = false →
      visualize_graph true g = VizResult.figure
        (normalizeColors (g.nodes.map fun v => (degree g v.name : Int)))
        "Node Degree" (g.nodes.map fun v => 5 + 3 * degree g v.name)) := by
  constructor <;> intro hc <;>
    simp [visualize_graph, hn, rawNodeColors, hc]

/-- Witness for C2 (amended): a graph whose first node carries a
`community` attribute is coloured by community index. -/
theorem coloring_branch_on_first_node_witness :
    (⟨"a", some 3⟩ : GNode).community.isSome = true ∧
    gFirstComm.nodes = ⟨"a", some 3⟩ :: [] ∧
    visualize_graph true gFirstComm = VizResult.figure
      (normalizeColors (gFirstComm.nodes.map fun v =>
        ((communityIndexOpt (communities gFirstComm) (v.community.getD 0)).getD 0 : Int)))
      "Community" (gFirstComm.nodes.map fun v => 5 + 3 * degree gFirstComm v.name) :=
  ⟨rfl, rfl, (coloring_branch_on_first_node gFirstComm ⟨"a", some 3⟩ [] rfl).1 rfl⟩

/-- C10 counterexample: in `gMissingComm` the distinct community values
enumerate as [8, 0], so value 0 has index 1; node "c" lacks the attribute
and is assigned colour index 1 — not 0, the index of the first enumerated
community value. -/
theorem missing_community_counterexample :
    gMissingComm.nodes.head? = some ⟨"a", some 8⟩ ∧
    communities gMissingComm = [8, 0] ∧
    (gMissingComm.nodes.map fun nd => nd.community) = [some 8, some 0, none] ∧
    (rawNodeColors gMissingComm ⟨"a", some 8⟩).1 = [0, 1, 1] ∧
    (1 : Int) ≠ 0 := by
  refine ⟨rfl, by decide, by decide, by decide, by decide⟩

/-- C10 amended: in the community branch, a node lacking the `community`
attribute is treated as though its community value were `0`: it receives
the index assigned to value 0 when 0 is among the distinct community
values, and the lookup default 0 otherwise — never a distinct "missing"
colour. -/
theorem missing_community_color (g : Graph) (first : GNode)
    (hc : first.community.isSome = true) (i : Nat) (v : GNode)
    (hv : g.nodes[i]? = some v) (hmiss : v.community = none) :
    (rawNodeColors g first).1[i]? =
      some ((communityIndexOpt (communities g) 0).getD 0 : Int) := by
  unfold rawNodeColors
  rw [if_pos hc]
  simp [List.getElem?_map, hv, hmiss]

/-- Witness for C10 (amended) at node "c" of `gMissingComm` (position 2):
its colour is the index of community value 0, namely 1. -/
theorem missing_community_color_witness :
    (⟨"a", some 8⟩ : GNode).community.isSome = true ∧
    gMissingComm.nodes[2]? = some ⟨"c", none⟩ ∧
    (rawNodeColors gMissingComm ⟨"a", some 8⟩).1[2]? =
      some ((communityIndexOpt (communities gMissingComm) 0).getD 0 : Int) :=
  ⟨rfl, by decide,
   missing_community_color gMissingComm ⟨"a", some 8⟩ rfl 2 ⟨"c", none⟩ (by decide) rfl⟩

/-- C8: colour normalization over the raw colour values of a non-empty
graph: if every value equals `v`, the normalization step is skipped (no
division occurs) and every node keeps the constant colour `v`; if the
values differ (max ≠ min), every normalized colour lies in [0, 1]. -/
theorem normalization_spec (g : Graph) (first : GNode) (hn : g.nodes.head? = some first) :
    (∀ v : Int, (∀ c ∈ (rawNodeColors g first).1, c = v) →
      normalizeColors (rawNodeColors g first).1 =
        (rawNodeColors g first).1.map (fun c : Int => (c : ℚ)) ∧
      ∀ q ∈ normalizeColors (rawNodeColors g first).1, q = (v : ℚ)) ∧
    (npMax (rawNodeColors g first).1 ≠ npMin (rawNodeColors g first).1 →
      ∀ q ∈ normalizeColors (rawNodeColors g first).1, 0 ≤ q ∧ q ≤ 1) := by
  have hlen : (rawNodeColors g first).1.length = g.nodes.length := by
    unfold rawNodeColors
    split <;> simp
  have hne : (rawNodeColors g first).1 ≠ [] := by
    intro h0
    rw [h0] at hlen
    cases hg : g.nodes with
    | nil => rw [hg] at hn; cases hn
    | cons a l => rw [hg] at hlen; simp at hlen
  constructor
  · intro v hv
    have hmaxv : npMax (rawNodeColors g first).1 = v := hv _ (npMax_mem _ hne)
    have hminv : npMin (rawNodeColors g first).1 = v := hv _ (npMin_mem _ hne)
    have hguard : ¬(0 < (rawNodeColors g first).1.length ∧
        npMax (rawNodeColors g first).1 ≠ npMin (rawNodeColors g first).1) := by
      rintro ⟨-, hne2⟩
      exact hne2 (by rw [hmaxv, hminv])
    constructor
    · unfold normalizeColors
      rw [if_neg hguard]
    · intro q hq
      rw [normalizeColors, if_neg hguard] at hq
      obtain ⟨c, hc, rfl⟩ := List.mem_map.mp hq
      rw [hv c hc]
  · intro hmaxmin q hq
    have hpos : 0 < (rawNodeColors g first).1.length := List.length_pos.mpr hne
    rw [normalizeColors, if_pos ⟨hpos, hmaxmin⟩] at hq
    obtain ⟨c, hc, rfl⟩ := List.mem_map.mp hq
    have h1 : npMin (rawNodeColors g first).1 ≤ c := npMin_le _ hc
    have h2 : c ≤ npMax (rawNodeColors g first).1 := le_npMax _ hc
    have h3 : npMin (rawNodeColors g first).1 ≤ npMax (rawNodeColors g first).1 :=
      npMin_le _ (npMax_mem _ hne)
    have h4 : npMin (rawNodeColors g first).1 < npMax (rawNodeColors g first).1 :=
      lt_of_le_of_ne h3 (Ne.symm hmaxmin)
    have hd : (0 : ℚ) < (npMax (rawNodeColors g first).1 : ℚ) -
        (npMin (rawNodeColors g first).1 : ℚ) := by
      rw [sub_pos]
      exact_mod_cast h4
    have hc1 : ((npMin (rawNodeColors g first).1 : Int) : ℚ) ≤ (c : ℚ) := by exact_mod_cast h1
    have hc2 : ((c : Int) : ℚ) ≤ ((npMax (rawNodeColors g first).1 : Int) : ℚ) := by
      exact_mod_cast h2
    constructor
    · apply div_nonneg _ hd.le
      linarith
    · rw [div_le_one hd]
      linarith

/-- Witness for C8: in `gSameDegree` both nodes have degree 1 and no
`community` attribute; every raw colour equals 1, so normalization is
skipped and the colours stay constant. -/
theorem normalization_spec_witness :
    gSameDegree.nodes.head? = some ⟨"a", none⟩ ∧
    (∀ c ∈ (rawNodeColors gSameDegree ⟨"a", none⟩).1, c = (1 : Int)) ∧
    normalizeColors (rawNodeColors gSameDegree ⟨"a", none⟩).1 =
      (rawNodeColors gSameDegree ⟨"a", none⟩).1.map (fun c : Int => (c : ℚ)) := by
  refine ⟨rfl, by decide, ?_⟩
  exact ((normalization_spec gSameDegree ⟨"a", none⟩ rfl).1 1 (by decide)).1

/-- C3 counterexample: in `fsSameSecond` every timestamp folder has an
`artifacts` folder with exactly one `*.graphml` file and the raw
modification times (1100 ms, 1900 ms) are distinct, yet the output keeps
discovery order [a, b]: the sort key is the second-truncated `modified`
string (1 s = 1 s), so the result is NOT sorted by modification time
descending, which would list b (1900 ms) first. -/
theorem find_graphml_files_sort_counterexample :
    (∀ d ∈ fsSameSecond.tsDirs, d.hasArtifacts = true ∧ d.files.length = 1) ∧
    (fsSameSecond.tsDirs.flatMap fun d => d.files.map fun f => f.mtimeMs) = [1100, 1900] ∧
    ((find_graphml_files fsSameSecond).2.map fun r => r.path) =
      ["r/output/t1/artifacts/a.graphml", "r/output/t2/artifacts/b.graphml"] ∧
    ((find_graphml_files fsSameSecond).2.map fun r => r.path) ≠
      ["r/output/t2/artifacts/b.graphml", "r/output/t1/artifacts/a.graphml"] := by
  refine ⟨by decide, by decide, by decide, by decide⟩

/-- C3 amended: with `root/output` present and every timestamp folder
holding an `artifacts` folder with exactly one `*.graphml` file, the
locator returns exactly N records, sorted descending by the
second-precision `modified` key (the formatted string, not the raw
mtime); records whose raw mtimes fall in the same whole second keep
discovery order. -/
theorem find_graphml_files_sorted (fs : RootFS) (hout : fs.hasOutput = true)
    (h : ∀ d ∈ fs.tsDirs, d.hasArtifacts = true ∧ d.files.length = 1) :
    ((find_graphml_files fs).2).length = fs.tsDirs.length ∧
    ((find_graphml_files fs).2).Pairwise (fun a b => b.modifiedSec ≤ a.modifiedSec) := by
  by_cases he : fs.tsDirs = []
  · refine ⟨?_, ?_⟩ <;> simp [find_graphml_files, hout, he]
  · have h2 : (find_graphml_files fs).2 =
        sortDesc (fun r => r.modifiedSec) (fs.tsDirs.flatMap (dirRecords fs)) := by
      simp [find_graphml_files, hout, he]
    refine ⟨?_, ?_⟩
    · rw [h2, length_sortDesc, length_flatMap_of_one]
      intro d hd
      obtain ⟨ha, hf⟩ := h d hd
      simp [dirRecords, ha, hf]
    · rw [h2]
      exact pairwise_sortDesc _ _

/-- Witness for C3 (amended) at `fsSameSecond`: two records, sorted (here
weakly) by the second-precision key. -/
theorem find_graphml_files_sorted_witness :
    fsSameSecond.hasOutput = true ∧
    (∀ d ∈ fsSameSecond.tsDirs, d.hasArtifacts = true ∧ d.files.length = 1) ∧
    ((find_graphml_files fsSameSecond).2).length = fsSameSecond.tsDirs.length ∧
    ((find_graphml_files fsSameSecond).2).Pairwise
      (fun a b => b.modifiedSec ≤ a.modifiedSec) := by
  refine ⟨rfl, by decide, ?_, ?_⟩
  · exact (find_graphml_files_sorted fsSameSecond rfl (by decide)).1
  · exact (find_graphml_files_sorted fsSameSecond rfl (by decide)).2

/-- C4: `find_latest_graphml` yields `none` when `root/output` is absent
or has no subdirectories; otherwise, writing `L` for the (unique) most
recently modified timestamp directory, it yields the summary export path
when `L/artifacts/summarized_graph.graphml` exists, else the first
`*.graphml` file found in `L`'s `artifacts` folder, else `none`. -/
theorem find_latest_graphml_spec (fs : RootFS) :
    (fs.hasOutput = false → find_latest_graphml fs = none) ∧
    (fs.tsDirs = [] → find_latest_graphml fs = none) ∧
    (∀ L ∈ fs.tsDirs, (∀ c ∈ fs.tsDirs, c ≠ L → c.mtimeMs < L.mtimeMs) →
      fs.hasOutput = true →
      find_latest_graphml fs =
        if L.hasArtifacts ∧ L.files.any (fun f => f.name = "summarized_graph.graphml") then
          some (fs.root ++ "/output/" ++ L.name ++ "/artifacts/summarized_graph.graphml")
        else if L.hasArtifacts then
          L.files.head?.map (fun f => artifactPath fs L f)
        else none) := by
  refine ⟨?_, ?_, ?_⟩
  · intro h
    simp [find_latest_graphml, h]
  · intro h
    simp [find_latest_graphml, h]
  · intro L hL hmax hout
    obtain ⟨d, ds, hds⟩ : ∃ d ds, fs.tsDirs = d :: ds := by
      cases hc : fs.tsDirs with
      | nil => rw [hc] at hL; cases hL
      | cons d ds => exact ⟨d, ds, rfl⟩
    rw [hds] at hL hmax
    have hmb : maxByMtime d ds = L := maxByMtime_eq ds d L hL hmax
    simp only [find_latest_graphml, hds, hout, hmb]
    cases hf : L.files <;> simp [hf]

/-- Witness for C4 at `fsTwoDirs`: the newest directory `latestDir` holds
the summary export, which is returned. -/
theorem find_latest_graphml_spec_witness :
    latestDir ∈ fsTwoDirs.tsDirs ∧
    (∀ c ∈ fsTwoDirs.tsDirs, c ≠ latestDir → c.mtimeMs < latestDir.mtimeMs) ∧
    fsTwoDirs.hasOutput = true ∧
    find_latest_graphml fsTwoDirs =
      some "r/output/t2/artifacts/summarized_graph.graphml" := by
  refine ⟨by decide, by decide, rfl, ?_⟩
  have h := (find_latest_graphml_spec fsTwoDirs).2.2 latestDir (by decide) (by decide) rfl
  rw [h]
  decide

/-- C9: the connected-component statistic the visualize tab displays
equals the true number of connected components: the shortcut that reports
1 directly when `nx.is_connected` holds agrees with
`nx.number_connected_components` in that case. -/
theorem displayedComponents_eq_numComponents (G : CGraph) (h : 0 < G.n) :
    displayedComponents G = numComponents G := by
  unfold displayedComponents
  by_cases hc : isConnected G = true
  · rw [if_pos hc]
    unfold isConnected at hc
    rw [dif_pos h] at hc
    have huniv : reachSet G ⟨0, h⟩ = Finset.univ := of_decide_eq_true hc
    have hall : ∀ v : Fin G.n, reachSet G v = reachSet G ⟨0, h⟩ := fun v =>
      reachSet_eq_of_mem G (by rw [huniv]; exact Finset.mem_univ v)
    have himg : (Finset.univ.image fun v : Fin G.n => reachSet G v) =
        {reachSet G ⟨0, h⟩} := by
      ext s
      simp only [Finset.mem_image, Finset.mem_singleton]
      constructor
      · rintro ⟨v, -, rfl⟩
        exact hall v
      · intro hs
        exact ⟨⟨0, h⟩, Finset.mem_univ _, hs.symm⟩
    unfold numComponents
    rw [himg, Finset.card_singleton]
  · rw [if_neg hc]

/-- Witness for C9 at the connected two-node graph. -/
theorem displayedComponents_eq_numComponents_witness :
    0 < cgraphPath.n ∧ displayedComponents cgraphPath = numComponents cgraphPath :=
  ⟨by decide, displayedComponents_eq_numComponents cgraphPath (by decide)⟩
